import Mathlib

/-!
Verification of the dependency-graph and status-history core of the
better-obsidian-kanban plugin.

The embedding below is a shallow model of two source components:

* `src/managers/DependencyManager.ts` — dependency graph construction
  (`buildDependencyGraph`), transitive queries (`getAllDependents`,
  `getAllDependencies`), cycle detection (`hasCircularDependency`),
  transition validation (`validateCardDependencies`) and topological
  sorting (`getTopologicalSort`).
* `src/services/HistoryService.ts` — status-history bookkeeping
  (`initializeCardHistory`, `updateCardHistory`, `getTimeInStatus`,
  `formatDuration`).

Modelling conventions:

* A JavaScript `Map` is modelled as an association list (`List (key × value)`)
  whose iteration order is the list order; `Map.get` is `mapGet`.
* A JavaScript `Set` of strings is modelled as a `List String` where `add`
  appends the element when it is absent (`addToSet`), preserving the
  insertion order of the JS `Set`.
* ISO timestamp strings are modelled by their millisecond value (`Int`):
  the code only ever compares, subtracts and stores them via
  `new Date(x).getTime()`.
* The recursive DFS helpers of the source terminate because their visited
  set grows; the model makes this explicit with a fuel argument that the
  callers instantiate with `cards.length + 2`, which is proved (or is
  evidently, for the concrete evaluations) enough for the recursion never
  to run out.
-/

namespace Kanban

/-- `CardMetadata` from `src/types/board.ts`, restricted to the fields read
by the dependency engine (`title`, `status`, `predecessors`, `successors`). -/
structure CardMetadata where
  title : String
  status : String
  predecessors : List String
  successors : List String
deriving DecidableEq, Repr

/-- `CardFile` from `src/types/board.ts`, restricted to its `metadata` field
(the dependency engine reads nothing else). -/
structure CardFile where
  metadata : CardMetadata
deriving DecidableEq, Repr

/-- The `Map<string, CardFile>` card collection, as an association list in
iteration order. -/
abbrev Cards := List (String × CardFile)

/-- `Map.get`: first binding of the key, if any. -/
def mapGet {β : Type} : List (String × β) → String → Option β
  | [], _ => none
  | (k, v) :: rest, id => if k = id then some v else mapGet rest id

/-- `Map.has` (the source calls `cards.has(id)`). -/
def hasCard (cards : Cards) (id : String) : Bool :=
  (mapGet cards id).isSome

/-- `Set.add`: append the element when absent, keeping insertion order. -/
def addToSet (s : List String) (v : String) : List String :=
  if v ∈ s then s else s ++ [v]

/-- The `DependencyGraph` of `src/types/board.ts`: both edge maps, modelled
as total functions defaulting to the empty set (`getPredecessors` /
`getSuccessors` return `... || new Set()` for unknown ids, and
`buildDependencyGraph` only ever adds edges at keys of the collection). -/
structure DepGraph where
  preds : String → List String
  succs : String → List String

/-- The freshly cleared graph. -/
def emptyGraph : DepGraph := ⟨fun _ => [], fun _ => []⟩

/-- The paired mutation performed for one retained relation in
`buildDependencyGraph`: add `fromId` to the predecessor set of `toId` and
`toId` to the successor set of `fromId`. -/
def addEdgePair (g : DepGraph) (toId fromId : String) : DepGraph :=
  { preds := fun x => if x = toId then addToSet (g.preds toId) fromId else g.preds x,
    succs := fun x => if x = fromId then addToSet (g.succs fromId) toId else g.succs x }

/-- The body of the `for (const [cardId, card] of cards)` loop of
`buildDependencyGraph`: fold the declared predecessor list, then the
declared successor list, dropping ids absent from the collection. -/
def processCard (cards : Cards) (g : DepGraph) (entry : String × CardFile) : DepGraph :=
  let cardId := entry.1
  let card := entry.2
  let g1 := card.metadata.predecessors.foldl
    (fun g p => if hasCard cards p then addEdgePair g cardId p else g) g
  card.metadata.successors.foldl
    (fun g s => if hasCard cards s then addEdgePair g s cardId else g) g1

/-- `DependencyManager.buildDependencyGraph`. -/
def buildDependencyGraph (cards : Cards) : DepGraph :=
  cards.foldl (processCard cards) emptyGraph

/-- `DependencyManager.getPredecessors`. -/
def getPredecessors (g : DepGraph) (cardId : String) : List String := g.preds cardId

/-- `DependencyManager.getSuccessors`. -/
def getSuccessors (g : DepGraph) (cardId : String) : List String := g.succs cardId

/-- The recursion of `hasCircularDependency`'s inner `hasCycle` closure over
one successor list, threading the shared `visited` set and short-circuiting
on the first `true`. -/
def goCycle (f : String → List String → List String → Bool × List String) :
    List String → List String → List String → Bool × List String
  | [], _, visited => (false, visited)
  | s :: rest, stack, visited =>
    match f s stack visited with
    | (true, v) => (true, v)
    | (false, v) => goCycle f rest stack v

/-- The inner `hasCycle` closure of `DependencyManager.hasCircularDependency`:
DFS along successor edges, returning `true` when a node already on the
recursion stack is revisited.  The recursion stack is passed downward (the
source's `recursionStack.delete` on exit is the automatic restoration of
that argument); the `visited` set is threaded through.  The fuel argument
makes the terminating recursion of the source structural. -/
def hasCycleAux (succ : String → List String) :
    Nat → String → List String → List String → Bool × List String
  | 0, _, _, visited => (false, visited)
  | fuel + 1, id, stack, visited =>
    if id ∈ stack then (true, visited)
    else if id ∈ visited then (false, visited)
    else goCycle (hasCycleAux succ fuel) (succ id) (id :: stack) (id :: visited)

/-- `DependencyManager.hasCircularDependency` on a given graph.  Callers
instantiate `fuel` with `cards.length + 2`, enough for the DFS (whose
visited set only ever holds ids of the collection plus the start id) never
to exhaust it. -/
def hasCircularDependency (g : DepGraph) (fuel : Nat) (cardId : String) : Bool :=
  (hasCycleAux g.succs fuel cardId [] []).1

/-- The loop of the `collectDependents` / `collectDependencies` closures over
one adjacency list: `dependents.add(s)` then the recursive call, threading
the `(visited, collected)` state. -/
def goCollect (f : String → List String × List String → List String × List String) :
    List String → List String × List String → List String × List String
  | [], st => st
  | s :: rest, st => goCollect f rest (f s (st.1, addToSet st.2 s))

/-- The recursive closure shared by `getAllDependents` (with `next :=
successors) and `getAllDependencies` (with `next :=` predecessors): DFS with
a visited-set guard, collecting every node reached by at least one edge. -/
def collectAux (next : String → List String) :
    Nat → String → List String × List String → List String × List String
  | 0, _, st => st
  | fuel + 1, id, st =>
    if id ∈ st.1 then st
    else goCollect (collectAux next fuel) (next id) (id :: st.1, st.2)

/-- `DependencyManager.getAllDependents`. -/
def getAllDependents (g : DepGraph) (fuel : Nat) (cardId : String) : List String :=
  (collectAux g.succs fuel cardId ([], [])).2

/-- `DependencyManager.getAllDependencies`. -/
def getAllDependencies (g : DepGraph) (fuel : Nat) (cardId : String) : List String :=
  (collectAux g.preds fuel cardId ([], [])).2

/-- The number of ids of `ids` not yet in the visited list `vis`: the
measure showing the DFS fuel of the model is never exhausted. -/
def countMissing (ids vis : List String) : Nat :=
  (ids.filter (fun v => !(decide (v ∈ vis)))).length

/-- State of `getTopologicalSort`: the output list, the permanent `visited`
set and the `tempMarked` recursion stack. -/
structure TopoState where
  result : List String
  visited : List String
  temp : List String
deriving DecidableEq, Repr

/-- Outcome of a (partial) run of `getTopologicalSort`: a final state, the
thrown `Error('Circular dependency detected')`, or fuel exhaustion (never
reached by the callers below, which supply sufficient fuel). -/
inductive TopoOut where
  | ok (s : TopoState)
  | cycleErr
  | fuelErr
deriving DecidableEq, Repr

/-- Sequencing of the `visit` calls of `getTopologicalSort`: stop at the
first thrown error, otherwise thread the state. -/
def exceptFold (f : String → TopoState → TopoOut) : List String → TopoState → TopoOut
  | [], s => TopoOut.ok s
  | p :: rest, s =>
    match f p s with
    | TopoOut.ok s1 => exceptFold f rest s1
    | e => e

/-- The inner `visit` closure of `DependencyManager.getTopologicalSort`:
throw on a `tempMarked` hit, return on a `visited` hit, otherwise mark
temporarily, visit all predecessors, then unmark, mark visited and append
to the result. -/
def topoVisit (preds : String → List String) : Nat → String → TopoState → TopoOut
  | 0, _, _ => TopoOut.fuelErr
  | fuel + 1, id, s =>
    if id ∈ s.temp then TopoOut.cycleErr
    else if id ∈ s.visited then TopoOut.ok s
    else
      match exceptFold (topoVisit preds fuel) (preds id) { s with temp := id :: s.temp } with
      | TopoOut.ok s2 =>
          TopoOut.ok { result := s2.result ++ [id], visited := id :: s2.visited,
                       temp := s2.temp.erase id }
      | e => e

/-- `DependencyManager.getTopologicalSort`: visit every not-yet-visited key
of the collection in iteration order, on the graph built from it. -/
def getTopologicalSort (cards : Cards) : TopoOut :=
  let g := buildDependencyGraph cards
  exceptFold
    (fun id s => if id ∈ s.visited then TopoOut.ok s
                 else topoVisit g.preds (cards.length + 2) id s)
    (cards.map Prod.fst) ⟨[], [], []⟩

/-- `ValidationResult` from `src/types/board.ts`. -/
structure ValidationResult where
  isValid : Bool
  errors : List String
  warnings : List String
deriving DecidableEq, Repr

/-- The `dependency_rules` board setting. -/
structure DependencyRules where
  enforce_predecessors : Bool
  allow_parallel_work : Bool
deriving DecidableEq, Repr

/-- The `settings` of `BoardConfig`; an absent `wip_limits` record is
modelled as the empty association list (both make every lookup miss). -/
structure BoardSettings where
  wip_limits : List (String × Int)
  dependency_rules : Option DependencyRules
deriving DecidableEq, Repr

/-- `BoardConfig` from `src/types/board.ts` (columns are never read by the
dependency engine). -/
structure BoardConfig where
  settings : BoardSettings
deriving DecidableEq, Repr

/-- Error text for a missing predecessor. -/
def missingPredMsg (p : String) : String :=
  "Predecessor card \x27" ++ p ++ "\x27 does not exist"

/-- Error text for a missing successor. -/
def missingSuccMsg (s : String) : String :=
  "Successor card \x27" ++ s ++ "\x27 does not exist"

/-- Error text for a detected cycle. -/
def cycleMsg : String := "Circular dependency detected"

/-- Error text for an uncompleted predecessor under `enforce_predecessors`. -/
def enforceMsg (p status : String) : String :=
  "Predecessor \x27" ++ p ++ "\x27 must be completed before this card can be moved to \x27"
    ++ status ++ "\x27"

/-- Warning text for a reached WIP limit. -/
def wipWarning (status : String) (limit : Int) : String :=
  "WIP limit for \x27" ++ status ++ "\x27 (" ++ toString limit ++ ") would be exceeded"

/-- The number of cards of the collection whose status equals `status`. -/
def countInStatus (allCards : Cards) (status : String) : Nat :=
  (allCards.filter (fun e => e.2.metadata.status == status)).length

/-- `DependencyManager.validateCardDependencies`, at a manager state whose
graph was built from `allCards` (as in `EnhancedBoardManager.moveCard`,
which rebuilds the graph from the same collection it validates against).
In that caller the card under validation carries the proposed status in
`card.metadata.status`.  The JavaScript truthiness test `if (wipLimit)`
is `wipLimit ≠ 0` on a present entry. -/
def validateCardDependencies (card : CardFile) (allCards : Cards) (cfg : BoardConfig) :
    ValidationResult :=
  let g := buildDependencyGraph allCards
  let predErrors := card.metadata.predecessors.filterMap fun p =>
    if hasCard allCards p then none else some (missingPredMsg p)
  let succErrors := card.metadata.successors.filterMap fun s =>
    if hasCard allCards s then none else some (missingSuccMsg s)
  let cycleErrors :=
    if hasCircularDependency g (allCards.length + 2) card.metadata.title
    then [cycleMsg] else []
  let enforceOn := match cfg.settings.dependency_rules with
    | some r => r.enforce_predecessors
    | none => false
  let enforceErrors :=
    if enforceOn then
      card.metadata.predecessors.filterMap fun p =>
        match mapGet allCards p with
        | some predecessor =>
            if predecessor.metadata.status ≠ "done"
            then some (enforceMsg p card.metadata.status) else none
        | none => none
    else []
  let errors := predErrors ++ succErrors ++ cycleErrors ++ enforceErrors
  let currentStatus := card.metadata.status
  let warnings := match mapGet cfg.settings.wip_limits currentStatus with
    | some wipLimit =>
        if wipLimit ≠ 0 then
          (if (countInStatus allCards currentStatus : Int) ≥ wipLimit
           then [wipWarning currentStatus wipLimit] else [])
        else []
    | none => []
  { isValid := errors.isEmpty, errors := errors, warnings := warnings }

/-- The successor-edge relation of a graph. -/
def succEdge (g : DepGraph) (a b : String) : Prop := b ∈ g.succs a

/-- The predecessor-edge relation of a graph. -/
def predEdge (g : DepGraph) (a b : String) : Prop := b ∈ g.preds a

/-- Acyclicity of the dependency graph: no node reaches itself through at
least one successor edge. -/
def Acyclic (g : DepGraph) : Prop :=
  ∀ x, ¬ Relation.TransGen (succEdge g) x x

/-- `a` occurs strictly before `b` in the list. -/
def appearsBefore (l : List String) (a b : String) : Prop :=
  a ∈ l ∧ b ∈ l ∧ l.indexOf a < l.indexOf b

/-- Invariant of the topological sort state: `visited` and `result` hold the
same ids, the result has no duplicates, and every predecessor of a node
already in the result occurs strictly earlier in it. -/
def TopoInv (preds : String → List String) (s : TopoState) : Prop :=
  (∀ v, v ∈ s.visited ↔ v ∈ s.result) ∧
  s.result.Nodup ∧
  (∀ c ∈ s.result, ∀ p ∈ preds c,
    p ∈ s.result ∧ s.result.indexOf p < s.result.indexOf c)

/-- `StatusHistoryEntry` from `src/types.ts`; ISO timestamps are modelled by
their millisecond values. -/
structure StatusHistoryEntry where
  status : String
  enteredAt : Int
  leftAt : Option Int
  duration : Option Int
deriving DecidableEq, Repr

/-- The metadata fields of the history-tracking `Card` type read by
`HistoryService` (`status`, creation `date`, `history`; an absent history
array is `none`). -/
structure HistMetadata where
  status : String
  date : Int
  history : Option (List StatusHistoryEntry)
deriving DecidableEq, Repr

/-- The history-tracking `Card` of `src/types.ts`, restricted to its
metadata. -/
structure Card where
  metadata : HistMetadata
deriving DecidableEq, Repr

/-- `HistoryService.initializeCardHistory`: seed an absent history with a
single open entry for the current status at the creation date. -/
def initializeCardHistory (card : Card) : Card :=
  match card.metadata.history with
  | none =>
      { card with metadata :=
          { card.metadata with
            history := some [⟨card.metadata.status, card.metadata.date, none, none⟩] } }
  | some _ => card

/-- The `history.find(entry => !entry.leftAt)` mutation of
`HistoryService.updateCardHistory`: close the first open entry in place. -/
def closeFirstOpen : List StatusHistoryEntry → Int → List StatusHistoryEntry
  | [], _ => []
  | e :: rest, now =>
    if e.leftAt = none then
      { e with leftAt := some now, duration := some (now - e.enteredAt) } :: rest
    else e :: closeFirstOpen rest now

/-- `HistoryService.updateCardHistory` with the call instant `now` explicit.
An absent history is first initialized to `[]` (a mutation kept even by the
early return); an unchanged status then returns; otherwise the open entry is
closed and a new open entry for `newStatus` is appended. -/
def updateCardHistory (card : Card) (newStatus : String) (now : Int) : Card :=
  let h0 := card.metadata.history.getD []
  let card1 := { card with metadata := { card.metadata with history := some h0 } }
  if card1.metadata.status = newStatus then card1
  else
    let h1 := closeFirstOpen h0 now
    let h2 := h1 ++ [⟨newStatus, now, none, none⟩]
    { card1 with metadata :=
        { card1.metadata with history := some h2, status := newStatus } }

/-- `HistoryService.getTimeInStatus` with the current instant `now`
explicit.  The `if (entry.duration)` truthiness test of the source skips a
zero duration, falling through to the open-entry branch. -/
def getTimeInStatus (card : Card) (status : String) (now : Int) : Int :=
  match card.metadata.history with
  | none => 0
  | some h =>
    (h.filter (fun e => e.status == status)).foldl
      (fun total e =>
        match e.duration with
        | some d =>
            if d ≠ 0 then total + d
            else if e.leftAt = none then total + (now - e.enteredAt) else total
        | none => if e.leftAt = none then total + (now - e.enteredAt) else total) 0

/-- `HistoryService.formatDuration`.  `Int.fdiv` is `Math.floor` of the
division; the `%` operands are only ever non-negative where evaluated, where
JavaScript `%` and `Int.emod` agree. -/
def formatDuration (milliseconds : Int) : String :=
  let seconds := milliseconds.fdiv 1000
  let minutes := seconds.fdiv 60
  let hours := minutes.fdiv 60
  let days := hours.fdiv 24
  if days > 0 then toString days ++ "d " ++ toString (hours % 24) ++ "h"
  else if hours > 0 then toString hours ++ "h " ++ toString (minutes % 60) ++ "m"
  else if minutes > 0 then toString minutes ++ "m"
  else toString seconds ++ "s"

/-- The amount one history entry contributes to the reduction inside
`getTimeInStatus`, evaluated at instant `now`. -/
def entryContrib (now : Int) (e : StatusHistoryEntry) : Int :=
  match e.duration with
  | some d => if d ≠ 0 then d else if e.leftAt = none then now - e.enteredAt else 0
  | none => if e.leftAt = none then now - e.enteredAt else 0

/-- A finite sequence of `updateCardHistory` calls (the spec's
`recordTransition`), each with its target status and instant. -/
def applyTransitions (card : Card) (ts : List (String × Int)) : Card :=
  ts.foldl (fun c p => updateCardHistory c p.1 p.2) card

/-- Exactly one entry of the history has an absent `leftAt`, and it is the
last one. -/
def OpenLast (h : List StatusHistoryEntry) : Prop :=
  ∃ front last, h = front ++ [last] ∧ last.leftAt = none ∧ ∀ e ∈ front, e.leftAt ≠ none

/-- The telescoping shape of a generated history starting at instant `t`:
every closed entry left at the instant the next one entered val, with its
duration stored as that difference, and the final entry open. -/
inductive Chained : Int → List StatusHistoryEntry → Prop
  | last (s : String) (t : Int) : Chained t [⟨s, t, none, none⟩]
  | cons (s : String) (t t' : Int) (rest : List StatusHistoryEntry) :
      Chained t' rest → Chained t (⟨s, t, some t', some (t' - t)⟩ :: rest)

/-- The distinct statuses occurring in a history, in first-occurrence
order. -/
def distinctStatuses (h : List StatusHistoryEntry) : List String :=
  (h.map StatusHistoryEntry.status).dedup

/-- The declared predecessor relation of the collection: `p` is a declared
predecessor of `c` when some entry for `c` lists `p` in its `predecessors`
or some entry for `p` lists `c` in its `successors`. -/
def declaredPredEdge (cards : Cards) (c p : String) : Prop :=
  (∃ card, (c, card) ∈ cards ∧ p ∈ card.metadata.predecessors) ∨
  (∃ card, (p, card) ∈ cards ∧ c ∈ card.metadata.successors)

/-- The declared successor relation, mirror image of `declaredPredEdge`. -/
def declaredSuccEdge (cards : Cards) (c s : String) : Prop :=
  (∃ card, (c, card) ∈ cards ∧ s ∈ card.metadata.successors) ∨
  (∃ card, (s, card) ∈ cards ∧ c ∈ card.metadata.predecessors)

/-- Every edge of the graph joins ids present in the collection and comes
from a declared relation. -/
def EdgesDeclared (cards : Cards) (g : DepGraph) : Prop :=
  (∀ c p, p ∈ g.preds c →
    hasCard cards p = true ∧ hasCard cards c = true ∧ declaredPredEdge cards c p) ∧
  (∀ c s, s ∈ g.succs c →
    hasCard cards s = true ∧ hasCard cards c = true ∧ declaredSuccEdge cards c s)

/-- The two edge maps are converses of each other. -/
def GraphSym (g : DepGraph) : Prop :=
  ∀ a b, a ∈ g.preds b ↔ b ∈ g.succs a

/-- A board configuration with no WIP limits and no dependency rules. -/
def emptyCfg : BoardConfig := ⟨⟨[], none⟩⟩

/-- Concrete card of a two-card cycle; its title differs from its map key
`"0001"`. -/
def cycleCardA : CardFile := ⟨⟨"Task A", "backlog", [], ["0002"]⟩⟩

/-- Concrete card of a two-card cycle, keyed `"0002"`. -/
def cycleCardB : CardFile := ⟨⟨"Task B", "backlog", [], ["0001"]⟩⟩

/-- A collection whose two cards form a successor cycle `0001 → 0002 →
0001`, with titles distinct from the keys. -/
def cycleCards : Cards := [("0001", cycleCardA), ("0002", cycleCardB)]

/-- A concrete card at status `review`. -/
def reviewCard : CardFile := ⟨⟨"R", "review", [], []⟩⟩

/-- A singleton collection holding `reviewCard`. -/
def reviewCards : Cards := [("r1", reviewCard)]

/-- Board configuration with `wip_limits.review = 1`. -/
def reviewCfgOne : BoardConfig := ⟨⟨[("review", 1)], none⟩⟩

/-- Board configuration with `wip_limits.review = 0`. -/
def reviewCfgZero : BoardConfig := ⟨⟨[("review", 0)], none⟩⟩

/-- Concrete card with no dependencies, status `done`. -/
def depCardA : CardFile := ⟨⟨"A", "done", [], []⟩⟩

/-- Concrete card declaring predecessor `"a"`. -/
def depCardB : CardFile := ⟨⟨"B", "todo", ["a"], []⟩⟩

/-- A two-card collection with the single declared edge `a → b`. -/
def depCards : Cards := [("a", depCardA), ("b", depCardB)]

/-- A two-card collection with no declared dependencies at all. -/
def plainCards : Cards := [("a", depCardA), ("b", depCardA)]

theorem mem_addToSet {s : List String} {v x : String} :
    x ∈ addToSet s v ↔ x ∈ s ∨ x = v := by
  unfold addToSet
  split
  · constructor
    · exact fun h => Or.inl h
    · rintro (h | rfl) <;> assumption
  · simp [List.mem_append]

theorem hasCard_iff_mem_keys {cards : Cards} {id : String} :
    hasCard cards id = true ↔ id ∈ cards.map Prod.fst := by
  induction cards with
  | nil => simp [hasCard, mapGet]
  | cons e rest ih =>
    obtain ⟨k, v⟩ := e
    by_cases h : k = id
    · subst h
      simp [hasCard, mapGet]
    · simp only [hasCard, mapGet, if_neg h, List.map_cons, List.mem_cons]
      rw [← hasCard]
      rw [ih]
      constructor
      · exact fun hm => Or.inr hm
      · rintro (rfl | hm)
        · exact absurd rfl h
        · exact hm

theorem edgesDeclared_addEdgePair {cards : Cards} {g : DepGraph} {toId fromId : String}
    (hg : EdgesDeclared cards g)
    (hto : hasCard cards toId = true) (hfrom : hasCard cards fromId = true)
    (hdecl : declaredPredEdge cards toId fromId) :
    EdgesDeclared cards (addEdgePair g toId fromId) := by
  obtain ⟨hp, hs⟩ := hg
  constructor
  · intro c p hmem
    simp only [addEdgePair] at hmem
    by_cases hc : c = toId
    · subst hc
      rw [if_pos rfl] at hmem
      rcases mem_addToSet.mp hmem with h | rfl
      · exact hp _ _ h
      · exact ⟨hfrom, hto, hdecl⟩
    · rw [if_neg hc] at hmem
      exact hp _ _ hmem
  · intro c s hmem
    simp only [addEdgePair] at hmem
    by_cases hc : c = fromId
    · subst hc
      rw [if_pos rfl] at hmem
      rcases mem_addToSet.mp hmem with h | rfl
      · exact hs _ _ h
      · refine ⟨hto, hfrom, ?_⟩
        rcases hdecl with ⟨card, hm, hx⟩ | ⟨card, hm, hx⟩
        · exact Or.inr ⟨card, hm, hx⟩
        · exact Or.inl ⟨card, hm, hx⟩
    · rw [if_neg hc] at hmem
      exact hs _ _ hmem

theorem edgesDeclared_predFold {cards : Cards} {cardId : String} {card : CardFile}
    (hmem : (cardId, card) ∈ cards) :
    ∀ (l : List String), (∀ p ∈ l, p ∈ card.metadata.predecessors) →
    ∀ (g : DepGraph), EdgesDeclared cards g →
    EdgesDeclared cards
      (l.foldl (fun g p => if hasCard cards p then addEdgePair g cardId p else g) g) := by
  intro l
  induction l with
  | nil => intro _ g hg; exact hg
  | cons p rest ih =>
    intro hl g hg
    simp only [List.foldl_cons]
    apply ih (fun q hq => hl q (List.mem_cons_of_mem _ hq))
    by_cases hpc : hasCard cards p = true
    · rw [if_pos hpc]
      have hcid : hasCard cards cardId = true := by
        rw [hasCard_iff_mem_keys]
        exact List.mem_map_of_mem Prod.fst hmem
      exact edgesDeclared_addEdgePair hg hcid hpc
        (Or.inl ⟨card, hmem, hl p (List.mem_cons_self p rest)⟩)
    · rw [if_neg hpc]
      exact hg

theorem edgesDeclared_succFold {cards : Cards} {cardId : String} {card : CardFile}
    (hmem : (cardId, card) ∈ cards) :
    ∀ (l : List String), (∀ s ∈ l, s ∈ card.metadata.successors) →
    ∀ (g : DepGraph), EdgesDeclared cards g →
    EdgesDeclared cards
      (l.foldl (fun g s => if hasCard cards s then addEdgePair g s cardId else g) g) := by
  intro l
  induction l with
  | nil => intro _ g hg; exact hg
  | cons s rest ih =>
    intro hl g hg
    simp only [List.foldl_cons]
    apply ih (fun q hq => hl q (List.mem_cons_of_mem _ hq))
    by_cases hsc : hasCard cards s = true
    · rw [if_pos hsc]
      have hcid : hasCard cards cardId = true := by
        rw [hasCard_iff_mem_keys]
        exact List.mem_map_of_mem Prod.fst hmem
      exact edgesDeclared_addEdgePair hg hsc hcid
        (Or.inr ⟨card, hmem, hl s (List.mem_cons_self s rest)⟩)
    · rw [if_neg hsc]
      exact hg

theorem edgesDeclared_processCard {cards : Cards} {g : DepGraph} {entry : String × CardFile}
    (hmem : entry ∈ cards) (hg : EdgesDeclared cards g) :
    EdgesDeclared cards (processCard cards g entry) := by
  obtain ⟨cardId, card⟩ := entry
  unfold processCard
  exact edgesDeclared_succFold hmem _ (fun _ h => h) _
    (edgesDeclared_predFold hmem _ (fun _ h => h) _ hg)

theorem edgesDeclared_foldl {cards : Cards} :
    ∀ (l : List (String × CardFile)), (∀ e ∈ l, e ∈ cards) →
    ∀ (g : DepGraph), EdgesDeclared cards g →
    EdgesDeclared cards (l.foldl (processCard cards) g) := by
  intro l
  induction l with
  | nil => intro _ g hg; exact hg
  | cons e rest ih =>
    intro hl g hg
    simp only [List.foldl_cons]
    exact ih (fun x hx => hl x (List.mem_cons_of_mem _ hx)) _
      (edgesDeclared_processCard (hl e (List.mem_cons_self e rest)) hg)

theorem edgesDeclared_build (cards : Cards) :
    EdgesDeclared cards (buildDependencyGraph cards) := by
  unfold buildDependencyGraph
  apply edgesDeclared_foldl cards (fun _ h => h)
  constructor
  · intro c p hmem
    simp [emptyGraph] at hmem
  · intro c s hmem
    simp [emptyGraph] at hmem

theorem graphSym_addEdgePair {g : DepGraph} {toId fromId : String} (hg : GraphSym g) :
    GraphSym (addEdgePair g toId fromId) := by
  intro a b
  simp only [addEdgePair]
  by_cases hb : b = toId
  · subst hb
    rw [if_pos rfl]
    by_cases ha : a = fromId
    · subst ha
      rw [if_pos rfl, mem_addToSet, mem_addToSet]
      simp
    · rw [if_neg ha, mem_addToSet]
      constructor
      · rintro (h | h)
        · exact (hg a b).mp h
        · exact absurd h ha
      · exact fun h => Or.inl ((hg a b).mpr h)
  · rw [if_neg hb]
    by_cases ha : a = fromId
    · subst ha
      rw [if_pos rfl, mem_addToSet]
      constructor
      · intro h
        exact Or.inl ((hg a b).mp h)
      · rintro (h | h)
        · exact (hg a b).mpr h
        · exact absurd h hb
    · rw [if_neg ha]
      exact hg a b

theorem graphSym_processCard {cards : Cards} {g : DepGraph} {entry : String × CardFile}
    (hg : GraphSym g) : GraphSym (processCard cards g entry) := by
  obtain ⟨cardId, card⟩ := entry
  unfold processCard
  have hfold : ∀ (l : List String) (f : String → String × String) (g : DepGraph),
      GraphSym g →
      GraphSym (l.foldl (fun g x =>
        if hasCard cards x then addEdgePair g (f x).1 (f x).2 else g) g) := by
    intro l
    induction l with
    | nil => intro _ g hg; exact hg
    | cons x rest ih =>
      intro f g hg
      simp only [List.foldl_cons]
      apply ih
      by_cases hx : hasCard cards x = true
      · rw [if_pos hx]; exact graphSym_addEdgePair hg
      · rw [if_neg hx]; exact hg
  have h1 := hfold card.metadata.predecessors (fun p => (cardId, p)) g hg
  exact hfold card.metadata.successors (fun s => (s, cardId)) _ h1

theorem graphSym_build (cards : Cards) : GraphSym (buildDependencyGraph cards) := by
  unfold buildDependencyGraph
  have : ∀ (l : List (String × CardFile)) (g : DepGraph), GraphSym g →
      GraphSym (l.foldl (processCard cards) g) := by
    intro l
    induction l with
    | nil => intro g hg; exact hg
    | cons e rest ih =>
      intro g hg
      simp only [List.foldl_cons]
      exact ih _ (graphSym_processCard hg)
  apply this
  intro a b
  simp [emptyGraph]

/-- C9: `formatDuration` converts milliseconds with floor truncation at each
unit boundary into a one- or two-unit string; in particular
`formatDuration 90000 = "1m"`, `formatDuration 3600000 = "1h 0m"`,
`formatDuration 90000000 = "1d 1h"` and `formatDuration 5000 = "5s"`. -/
theorem formatDuration_spec_examples :
    formatDuration 90000 = "1m" ∧ formatDuration 3600000 = "1h 0m" ∧
    formatDuration 90000000 = "1d 1h" ∧ formatDuration 5000 = "5s" := by
  refine ⟨?_, ?_, ?_, ?_⟩ <;> decide

/-- C6: for every `validateTransition` call the returned result has
`isValid = true` exactly when its error list is empty, so the warnings list
never influences validity. -/
theorem valid_iff_no_errors (card : CardFile) (allCards : Cards) (cfg : BoardConfig) :
    (validateCardDependencies card allCards cfg).isValid = true ↔
    (validateCardDependencies card allCards cfg).errors = [] := by
  simp only [validateCardDependencies]
  exact List.isEmpty_iff

/-- C10: a WIP limit equal to `0` for the card's (proposed) status never
produces a WIP warning, however many cards occupy that status: the zero
limit behaves as if no limit were configured. -/
theorem wip_limit_zero_no_warning (card : CardFile) (allCards : Cards) (cfg : BoardConfig)
    (h : mapGet cfg.settings.wip_limits card.metadata.status = some 0) :
    (validateCardDependencies card allCards cfg).warnings = [] := by
  simp only [validateCardDependencies, h]
  simp

/-- Witness for C10 at a concrete input. -/
theorem wip_limit_zero_no_warning_witness :
    mapGet reviewCfgZero.settings.wip_limits reviewCard.metadata.status = some 0 ∧
    (validateCardDependencies reviewCard reviewCards reviewCfgZero).warnings = [] :=
  ⟨by decide, wip_limit_zero_no_warning reviewCard reviewCards reviewCfgZero (by decide)⟩

/-- C7 (counterexample to the claim as stated): with a defined WIP limit of
`0` for the proposed status and the occupancy count at or above that limit,
the result contains no WIP warning at all. -/
theorem wip_warning_counterexample :
    mapGet reviewCfgZero.settings.wip_limits reviewCard.metadata.status = some 0 ∧
    (countInStatus reviewCards reviewCard.metadata.status : Int) ≥ 0 ∧
    (validateCardDependencies reviewCard reviewCards reviewCfgZero).warnings = [] := by
  refine ⟨by decide, by decide, by decide⟩

/-- C7 (amended): when the board defines a *nonzero* WIP limit for the
card's (proposed) status and the occupancy count is at or above the limit,
the result carries the WIP warning, and the error list is exactly what it
would be without any WIP limit configured — the WIP condition alone never
invalidates the transition. -/
theorem wip_warning_not_error (card : CardFile) (allCards : Cards) (cfg : BoardConfig)
    (l : Int) (hl : mapGet cfg.settings.wip_limits card.metadata.status = some l)
    (hnz : l ≠ 0) (hcount : (countInStatus allCards card.metadata.status : Int) ≥ l) :
    wipWarning card.metadata.status l ∈
      (validateCardDependencies card allCards cfg).warnings ∧
    (validateCardDependencies card allCards cfg).errors =
      (validateCardDependencies card allCards
        { cfg with settings := { cfg.settings with wip_limits := [] } }).errors := by
  constructor
  · simp only [validateCardDependencies, hl]
    rw [if_pos hnz, if_pos hcount]
    simp
  · rfl

/-- Witness for the amended C7 at a concrete input. -/
theorem wip_warning_not_error_witness :
    mapGet reviewCfgOne.settings.wip_limits reviewCard.metadata.status = some 1 ∧
    (1 : Int) ≠ 0 ∧
    (countInStatus reviewCards reviewCard.metadata.status : Int) ≥ 1 ∧
    (wipWarning reviewCard.metadata.status 1 ∈
        (validateCardDependencies reviewCard reviewCards reviewCfgOne).warnings ∧
      (validateCardDependencies reviewCard reviewCards reviewCfgOne).errors =
        (validateCardDependencies reviewCard reviewCards
          { reviewCfgOne with settings :=
              { reviewCfgOne.settings with wip_limits := [] } }).errors) :=
  ⟨by decide, by decide, by decide,
    wip_warning_not_error reviewCard reviewCards reviewCfgOne 1
      (by decide) (by decide) (by decide)⟩

/-- C1 (evidence of the code bug at the failing input): in `cycleCards` the
DFS from the card's id `"0001"` over successor edges finds a cycle, yet
`validateCardDependencies` — which passes `card.metadata.title` rather than
the card's id to `hasCircularDependency` — emits no cycle error for that
card. -/
theorem cycle_error_missed_at_failing_input :
    hasCircularDependency (buildDependencyGraph cycleCards) (cycleCards.length + 2) "0001"
      = true ∧
    cycleMsg ∉ (validateCardDependencies cycleCardA cycleCards emptyCfg).errors := by
  refine ⟨by decide, by decide⟩

/-- C4: after `build()`, every predecessor or successor edge returned for
any id joins two ids present in the collection and instantiates a declared
relation — no dangling edges ever appear. -/
theorem build_edges_subset_declared (cards : Cards) (id x : String) :
    (x ∈ getPredecessors (buildDependencyGraph cards) id →
      hasCard cards x = true ∧ hasCard cards id = true ∧ declaredPredEdge cards id x) ∧
    (x ∈ getSuccessors (buildDependencyGraph cards) id →
      hasCard cards x = true ∧ hasCard cards id = true ∧ declaredSuccEdge cards id x) :=
  ⟨fun h => (edgesDeclared_build cards).1 id x h,
   fun h => (edgesDeclared_build cards).2 id x h⟩

/-- Witness for C4 at a concrete collection with one retained edge. -/
theorem build_edges_subset_declared_witness :
    (hasCard depCards "a" = true ∧ hasCard depCards "b" = true ∧
      declaredPredEdge depCards "b" "a") ∧
    (hasCard depCards "b" = true ∧ hasCard depCards "a" = true ∧
      declaredSuccEdge depCards "a" "b") :=
  ⟨(build_edges_subset_declared depCards "b" "a").1 (by decide),
   (build_edges_subset_declared depCards "a" "b").2 (by decide)⟩

theorem closeFirstOpen_append_open {front : List StatusHistoryEntry}
    {last : StatusHistoryEntry} (now : Int)
    (hfront : ∀ e ∈ front, e.leftAt ≠ none) (hlast : last.leftAt = none) :
    closeFirstOpen (front ++ [last]) now =
      front ++ [{ last with leftAt := some now, duration := some (now - last.enteredAt) }] := by
  induction front with
  | nil =>
    simp only [List.nil_append, closeFirstOpen, if_pos hlast]
  | cons e rest ih =>
    have he : e.leftAt ≠ none := hfront e (List.mem_cons_self e rest)
    simp only [List.cons_append, closeFirstOpen, if_neg he, List.append_eq]
    rw [ih (fun x hx => hfront x (List.mem_cons_of_mem _ hx))]

theorem openLast_updateCardHistory {card : Card} {h : List StatusHistoryEntry}
    (hh : card.metadata.history = some h) (hol : OpenLast h)
    (newStatus : String) (now : Int) :
    ∃ h', (updateCardHistory card newStatus now).metadata.history = some h' ∧ OpenLast h' := by
  obtain ⟨front, last, rfl, hlast, hfront⟩ := hol
  unfold updateCardHistory
  rw [hh]
  simp only [Option.getD_some]
  by_cases hst : card.metadata.status = newStatus
  · rw [if_pos hst]
    exact ⟨front ++ [last], rfl, front, last, rfl, hlast, hfront⟩
  · rw [if_neg hst]
    refine ⟨_, rfl, ?_⟩
    rw [closeFirstOpen_append_open now hfront hlast]
    refine ⟨front ++ [{ last with
        leftAt := some now
        duration := some (now - last.enteredAt) }],
      ⟨newStatus, now, none, none⟩, by simp, rfl, ?_⟩
    intro e he
    rcases List.mem_append.mp he with he | he
    · exact hfront e he
    · rw [List.mem_singleton.mp he]
      simp

theorem openLast_applyTransitions :
    ∀ (ts : List (String × Int)) (card : Card) (h : List StatusHistoryEntry),
    card.metadata.history = some h → OpenLast h →
    ∃ h', (applyTransitions card ts).metadata.history = some h' ∧ OpenLast h' := by
  intro ts
  induction ts with
  | nil => exact fun card h hh hol => ⟨h, hh, hol⟩
  | cons p rest ih =>
    intro card h hh hol
    simp only [applyTransitions, List.foldl_cons]
    obtain ⟨h1, hh1, hol1⟩ := openLast_updateCardHistory hh hol p.1 p.2
    exact ih _ h1 hh1 hol1

theorem initializeCardHistory_none {card : Card} (hnone : card.metadata.history = none) :
    (initializeCardHistory card).metadata.history =
      some [⟨card.metadata.status, card.metadata.date, none, none⟩] := by
  unfold initializeCardHistory
  rw [hnone]

/-- C3: starting from a history seeded by `initializeCardHistory` (one open
entry), any finite sequence of `updateCardHistory` calls leaves a history
with exactly one entry whose `leftAt` is absent, and that entry is the last
one. -/
theorem history_single_open_last (card : Card) (hnone : card.metadata.history = none)
    (ts : List (String × Int)) :
    ∃ h, (applyTransitions (initializeCardHistory card) ts).metadata.history = some h ∧
      OpenLast h := by
  apply openLast_applyTransitions ts (initializeCardHistory card)
    [⟨card.metadata.status, card.metadata.date, none, none⟩]
    (initializeCardHistory_none hnone)
  exact ⟨[], ⟨card.metadata.status, card.metadata.date, none, none⟩, rfl, rfl, by simp⟩

/-- Witness for C3 at a concrete card and transition sequence. -/
theorem history_single_open_last_witness :
    (⟨⟨"backlog", 0, none⟩⟩ : Card).metadata.history = none ∧
    ∃ h, (applyTransitions (initializeCardHistory ⟨⟨"backlog", 0, none⟩⟩)
        [("wip", 5), ("done", 9)]).metadata.history = some h ∧ OpenLast h :=
  ⟨rfl, history_single_open_last ⟨⟨"backlog", 0, none⟩⟩ rfl [("wip", 5), ("done", 9)]⟩

theorem chained_closeFirstOpen_append {t : Int} {h : List StatusHistoryEntry}
    (hc : Chained t h) (now : Int) (s' : String) :
    Chained t (closeFirstOpen h now ++ [⟨s', now, none, none⟩]) := by
  induction hc with
  | last s t =>
    simp only [closeFirstOpen, if_pos rfl]
    exact Chained.cons s t now _ (Chained.last s' now)
  | cons s t t' rest _ ih =>
    have hne : (some t' : Option Int) ≠ none := by simp
    simp only [closeFirstOpen, if_neg hne, List.cons_append]
    exact Chained.cons s t t' _ ih

theorem chained_updateCardHistory {card : Card} {h : List StatusHistoryEntry} {t : Int}
    (hh : card.metadata.history = some h) (hc : Chained t h)
    (newStatus : String) (now : Int) :
    ∃ h', (updateCardHistory card newStatus now).metadata.history = some h' ∧ Chained t h' := by
  unfold updateCardHistory
  rw [hh]
  simp only [Option.getD_some]
  by_cases hst : card.metadata.status = newStatus
  · rw [if_pos hst]
    exact ⟨h, rfl, hc⟩
  · rw [if_neg hst]
    exact ⟨_, rfl, chained_closeFirstOpen_append hc now newStatus⟩

theorem chained_applyTransitions :
    ∀ (ts : List (String × Int)) (card : Card) (h : List StatusHistoryEntry) (t : Int),
    card.metadata.history = some h → Chained t h →
    ∃ h', (applyTransitions card ts).metadata.history = some h' ∧ Chained t h' := by
  intro ts
  induction ts with
  | nil => exact fun card h t hh hc => ⟨h, hh, hc⟩
  | cons p rest ih =>
    intro card h t hh hc
    simp only [applyTransitions, List.foldl_cons]
    obtain ⟨h1, hh1, hc1⟩ := chained_updateCardHistory hh hc p.1 p.2
    exact ih _ h1 t hh1 hc1

theorem chained_head {t : Int} {h : List StatusHistoryEntry} (hc : Chained t h) :
    ∃ e, h.head? = some e ∧ e.enteredAt = t := by
  cases hc with
  | last s t => exact ⟨_, rfl, rfl⟩
  | cons s t t' rest _ => exact ⟨_, rfl, rfl⟩

theorem chained_sum {t : Int} {h : List StatusHistoryEntry} (hc : Chained t h) (T : Int) :
    ((h.map (entryContrib T)).sum) = T - t := by
  induction hc with
  | last s t => simp [entryContrib]
  | cons s t t' rest _ ih =>
    simp only [List.map_cons, List.sum_cons, ih, entryContrib]
    by_cases hz : t' - t ≠ 0
    · rw [if_pos hz]; omega
    · rw [if_neg hz]
      simp only [ne_eq, not_not] at hz
      simp only [reduceCtorEq, if_false]
      omega

theorem foldl_of_pointwise (f : Int → StatusHistoryEntry → Int)
    (g : StatusHistoryEntry → Int) (hf : ∀ a e, f a e = a + g e) :
    ∀ (l : List StatusHistoryEntry) (a : Int), l.foldl f a = a + (l.map g).sum := by
  intro l
  induction l with
  | nil => intro a; simp
  | cons e rest ih =>
    intro a
    simp only [List.foldl_cons, List.map_cons, List.sum_cons, ih, hf]
    omega

theorem getTimeInStatus_eq_sum {card : Card} {h : List StatusHistoryEntry}
    (hh : card.metadata.history = some h) (s : String) (T : Int) :
    getTimeInStatus card s T =
      ((h.filter (fun e => e.status == s)).map (entryContrib T)).sum := by
  unfold getTimeInStatus
  rw [hh]
  refine (foldl_of_pointwise _ (entryContrib T) ?_ _ 0).trans (zero_add _)
  intro a e
  unfold entryContrib
  rcases e with ⟨st, en, la, du⟩
  cases du <;> cases la <;> simp <;> split <;> simp <;> omega

theorem sum_map_filter_split (f : StatusHistoryEntry → Int) (p : StatusHistoryEntry → Bool) :
    ∀ h : List StatusHistoryEntry,
    ((h.filter p).map f).sum + ((h.filter (fun e => !(p e))).map f).sum = (h.map f).sum := by
  intro h
  induction h with
  | nil => simp
  | cons e rest ih =>
    by_cases hp : p e = true
    · simp only [List.filter_cons, hp]
      simp only [Bool.not_true, Bool.false_eq_true, if_true, if_false, List.map_cons,
        List.sum_cons]
      omega
    · have hpf : p e = false := by revert hp; cases p e <;> simp
      simp only [List.filter_cons, hpf]
      simp only [Bool.not_false, Bool.false_eq_true, if_true, if_false, List.map_cons,
        List.sum_cons]
      omega

theorem filter_key_of_filter_ne {s k : String} (hne : k ≠ s) :
    ∀ h : List StatusHistoryEntry,
    (h.filter (fun e => !(e.status == s))).filter (fun e => e.status == k) =
      h.filter (fun e => e.status == k) := by
  intro h
  induction h with
  | nil => rfl
  | cons e rest ih =>
    by_cases hs : e.status = s
    · have hk : (e.status == k) = false := by
        rw [hs]
        exact beq_eq_false_iff_ne.mpr (Ne.symm hne)
      have hss : (e.status == s) = true := by simp [hs]
      simp [List.filter_cons, hss, hk, ih]
    · have hs' : (e.status == s) = false := beq_eq_false_iff_ne.mpr hs
      simp [List.filter_cons, hs', ih]

theorem sum_over_distinct (f : StatusHistoryEntry → Int) :
    ∀ (keys : List String) (h : List StatusHistoryEntry), keys.Nodup →
    (∀ e ∈ h, e.status ∈ keys) →
    (keys.map (fun s => ((h.filter (fun e => e.status == s)).map f).sum)).sum
      = (h.map f).sum := by
  intro keys
  induction keys with
  | nil =>
    intro h _ hcov
    have hnil : h = [] := by
      cases h with
      | nil => rfl
      | cons e rest => exact absurd (hcov e (List.mem_cons_self e rest)) (List.not_mem_nil _)
    simp [hnil]
  | cons s ks ih =>
    intro h hnd hcov
    have hs_not : s ∉ ks := (List.nodup_cons.mp hnd).1
    have hnd' : ks.Nodup := (List.nodup_cons.mp hnd).2
    simp only [List.map_cons, List.sum_cons]
    have hcongr : ∀ k ∈ ks,
        ((h.filter (fun e => e.status == k)).map f).sum
          = (((h.filter (fun e => !(e.status == s))).filter
              (fun e => e.status == k)).map f).sum := by
      intro k hk
      have hne : k ≠ s := fun hkk => hs_not (hkk ▸ hk)
      rw [filter_key_of_filter_ne hne]
    rw [List.map_congr_left hcongr]
    rw [ih (h.filter (fun e => !(e.status == s))) hnd' ?_]
    · exact sum_map_filter_split f _ h
    · intro e he
      obtain ⟨hmem, hne⟩ := List.mem_filter.mp he
      have := hcov e hmem
      simp only [Bool.not_eq_true', beq_eq_false_iff_ne, ne_eq] at hne
      rcases List.mem_cons.mp this with hh | hh
      · exact absurd hh hne
      · exact hh

/-- C5: for a history seeded by `initializeCardHistory` and extended by any
sequence of `updateCardHistory` calls with non-decreasing instants, the
values of `getTimeInStatus` at instant `T` summed over all distinct statuses
of the history equal `T` minus the `enteredAt` of the first history entry:
the whole lifetime is accounted for with no gaps or overlaps. -/
theorem time_in_status_total (card : Card) (hnone : card.metadata.history = none)
    (ts : List (String × Int)) (T : Int)
    (hmono : List.Chain' (· ≤ ·) (card.metadata.date :: ts.map Prod.snd)) :
    ∃ h e0,
      (applyTransitions (initializeCardHistory card) ts).metadata.history = some h ∧
      h.head? = some e0 ∧
      ((distinctStatuses h).map
        (fun s => getTimeInStatus (applyTransitions (initializeCardHistory card) ts) s T)).sum
        = T - e0.enteredAt := by
  obtain ⟨h, hh, hc⟩ := chained_applyTransitions ts (initializeCardHistory card)
    [⟨card.metadata.status, card.metadata.date, none, none⟩] card.metadata.date
    (initializeCardHistory_none hnone)
    (Chained.last card.metadata.status card.metadata.date)
  obtain ⟨e0, he0, hent⟩ := chained_head hc
  refine ⟨h, e0, hh, he0, ?_⟩
  have hts : ∀ s, getTimeInStatus (applyTransitions (initializeCardHistory card) ts) s T
      = ((h.filter (fun e => e.status == s)).map (entryContrib T)).sum :=
    fun s => getTimeInStatus_eq_sum hh s T
  calc ((distinctStatuses h).map
        (fun s => getTimeInStatus (applyTransitions (initializeCardHistory card) ts) s T)).sum
      = ((distinctStatuses h).map
        (fun s => ((h.filter (fun e => e.status == s)).map (entryContrib T)).sum)).sum := by
        exact congrArg List.sum (List.map_congr_left (fun s _ => hts s))
    _ = (h.map (entryContrib T)).sum := by
        apply sum_over_distinct (entryContrib T) (distinctStatuses h) h (List.nodup_dedup _)
        intro e he
        exact List.mem_dedup.mpr (List.mem_map_of_mem StatusHistoryEntry.status he)
    _ = T - card.metadata.date := chained_sum hc T
    _ = T - e0.enteredAt := by rw [hent]

/-- Witness for C5 at a concrete card, transition sequence and instant. -/
theorem time_in_status_total_witness :
    (⟨⟨"backlog", 0, none⟩⟩ : Card).metadata.history = none ∧
    List.Chain' (· ≤ ·)
      ((⟨⟨"backlog", 0, none⟩⟩ : Card).metadata.date :: ([("wip", 4), ("done", 10)].map Prod.snd)) ∧
    ∃ h e0,
      (applyTransitions (initializeCardHistory ⟨⟨"backlog", 0, none⟩⟩)
        [("wip", 4), ("done", 10)]).metadata.history = some h ∧
      h.head? = some e0 ∧
      ((distinctStatuses h).map
        (fun s => getTimeInStatus
          (applyTransitions (initializeCardHistory ⟨⟨"backlog", 0, none⟩⟩)
            [("wip", 4), ("done", 10)]) s 25)).sum
        = 25 - e0.enteredAt :=
  ⟨rfl, by simp,
    time_in_status_total ⟨⟨"backlog", 0, none⟩⟩ rfl [("wip", 4), ("done", 10)] 25 (by simp)⟩

theorem filter_length_le_of_imp {α : Type} (p q : α → Bool) :
    ∀ (l : List α), (∀ x ∈ l, q x = true → p x = true) →
    (l.filter q).length ≤ (l.filter p).length := by
  intro l
  induction l with
  | nil => intro _; exact Nat.le_refl 0
  | cons a rest ih =>
    intro himp
    have ih' := ih (fun x hx => himp x (List.mem_cons_of_mem _ hx))
    by_cases hq : q a = true
    · have hp : p a = true := himp a (List.mem_cons_self a rest) hq
      simp only [List.filter_cons, hq, hp, if_true]
      simpa using Nat.succ_le_succ ih'
    · have hqf : q a = false := by revert hq; cases q a <;> simp
      by_cases hp : p a = true
      · simp only [List.filter_cons, hqf, hp]
        simp only [Bool.false_eq_true, if_false, if_true, List.length_cons]
        omega
      · have hpf : p a = false := by revert hp; cases p a <;> simp
        simp only [List.filter_cons, hqf, hpf, Bool.false_eq_true, if_false]
        exact ih'

theorem filter_length_lt_of_witness {α : Type} (p q : α → Bool) :
    ∀ (l : List α), (∀ x ∈ l, q x = true → p x = true) →
    ∀ a ∈ l, p a = true → q a = false →
    (l.filter q).length < (l.filter p).length := by
  intro l
  induction l with
  | nil => intro _ a ha; exact absurd ha (List.not_mem_nil a)
  | cons b rest ih =>
    intro himp a ha hpa hqa
    have hle := filter_length_le_of_imp p q rest
      (fun x hx => himp x (List.mem_cons_of_mem _ hx))
    rcases List.mem_cons.mp ha with rfl | ha'
    · simp only [List.filter_cons, hqa, hpa, Bool.false_eq_true, if_false, if_true,
        List.length_cons]
      omega
    · have hlt := ih (fun x hx => himp x (List.mem_cons_of_mem _ hx)) a ha' hpa hqa
      by_cases hqb : q b = true
      · have hpb : p b = true := himp b (List.mem_cons_self b rest) hqb
        simp only [List.filter_cons, hqb, hpb, if_true, List.length_cons]
        omega
      · have hqbf : q b = false := by revert hqb; cases q b <;> simp
        by_cases hpb : p b = true
        · simp only [List.filter_cons, hqbf, hpb, Bool.false_eq_true, if_false, if_true,
            List.length_cons]
          omega
        · have hpbf : p b = false := by revert hpb; cases p b <;> simp
          simp only [List.filter_cons, hqbf, hpbf, Bool.false_eq_true, if_false]
          exact hlt

theorem countMissing_mono (ids : List String) {vis vis' : List String} (h : vis ⊆ vis') :
    countMissing ids vis' ≤ countMissing ids vis := by
  apply filter_length_le_of_imp
  intro x _ hx
  simp only [Bool.not_eq_true', decide_eq_false_iff_not] at hx ⊢
  exact fun hmem => hx (h hmem)

theorem countMissing_cons_lt {ids vis : List String} {id : String}
    (hid : id ∈ ids) (hnv : id ∉ vis) :
    countMissing ids (id :: vis) < countMissing ids vis := by
  apply filter_length_lt_of_witness
  · intro x _ hx
    simp only [Bool.not_eq_true', decide_eq_false_iff_not, List.mem_cons, not_or] at hx ⊢
    exact hx.2
  · exact hid
  · simp [hnv]
  · simp

theorem countMissing_cons_le {ids vis : List String} (id : String) :
    countMissing ids (id :: vis) ≤ countMissing ids vis :=
  countMissing_mono ids (fun x hx => List.mem_cons_of_mem _ hx)

theorem goCollect_mono
    (f : String → List String × List String → List String × List String)
    (hf : ∀ s st, st.1 ⊆ (f s st).1 ∧ st.2 ⊆ (f s st).2) :
    ∀ (l : List String) (st : List String × List String),
    st.1 ⊆ (goCollect f l st).1 ∧ st.2 ⊆ (goCollect f l st).2 := by
  intro l
  induction l with
  | nil => intro st; exact ⟨fun x h => h, fun x h => h⟩
  | cons s rest ih =>
    intro st
    simp only [goCollect]
    have h1 := hf s (st.1, addToSet st.2 s)
    have h2 := ih (f s (st.1, addToSet st.2 s))
    constructor
    · exact fun x hx => h2.1 (h1.1 hx)
    · exact fun x hx => h2.2 (h1.2 (mem_addToSet.mpr (Or.inl hx)))

theorem collectAux_mono (next : String → List String) :
    ∀ (fuel : Nat) (id : String) (st : List String × List String),
    st.1 ⊆ (collectAux next fuel id st).1 ∧ st.2 ⊆ (collectAux next fuel id st).2 := by
  intro fuel
  induction fuel with
  | zero => intro id st; exact ⟨fun x h => h, fun x h => h⟩
  | succ F ih =>
    intro id st
    simp only [collectAux]
    by_cases hid : id ∈ st.1
    · rw [if_pos hid]; exact ⟨fun x h => h, fun x h => h⟩
    · rw [if_neg hid]
      have hg := goCollect_mono (collectAux next F) (fun s st' => ih s st')
        (next id) (id :: st.1, st.2)
      exact ⟨fun x hx => hg.1 (List.mem_cons_of_mem _ hx), hg.2⟩

theorem collectAux_root (next : String → List String) (fuel : Nat) (id : String)
    (st : List String × List String) (hf : 0 < fuel) :
    id ∈ (collectAux next fuel id st).1 := by
  cases fuel with
  | zero => exact absurd hf (Nat.lt_irrefl 0)
  | succ F =>
    simp only [collectAux]
    by_cases hid : id ∈ st.1
    · rw [if_pos hid]; exact hid
    · rw [if_neg hid]
      exact (goCollect_mono (collectAux next F) (fun s st' => collectAux_mono next F s st')
        (next id) (id :: st.1, st.2)).1 (List.mem_cons_self _ _)

theorem goCollect_sound
    (f : String → List String × List String → List String × List String)
    (r : String → String → Prop)
    (hf : ∀ s st y, y ∈ (f s st).2 → y ∈ st.2 ∨ Relation.TransGen r s y) :
    ∀ (l : List String) (st : List String × List String) (y : String),
    y ∈ (goCollect f l st).2 →
    y ∈ st.2 ∨ ∃ s ∈ l, y = s ∨ Relation.TransGen r s y := by
  intro l
  induction l with
  | nil => intro st y hy; exact Or.inl hy
  | cons s rest ih =>
    intro st y hy
    simp only [goCollect] at hy
    rcases ih _ y hy with hmem | ⟨s', hs', hh⟩
    · rcases hf s _ y hmem with hmem2 | ht
      · rcases mem_addToSet.mp hmem2 with h | h
        · exact Or.inl h
        · exact Or.inr ⟨s, List.mem_cons_self s rest, Or.inl h⟩
      · exact Or.inr ⟨s, List.mem_cons_self s rest, Or.inr ht⟩
    · exact Or.inr ⟨s', List.mem_cons_of_mem _ hs', hh⟩

theorem collectAux_sound (next : String → List String) :
    ∀ (fuel : Nat) (id : String) (st : List String × List String) (y : String),
    y ∈ (collectAux next fuel id st).2 →
    y ∈ st.2 ∨ Relation.TransGen (fun a b => b ∈ next a) id y := by
  intro fuel
  induction fuel with
  | zero => intro id st y h; exact Or.inl h
  | succ F ih =>
    intro id st y hy
    simp only [collectAux] at hy
    by_cases hid : id ∈ st.1
    · rw [if_pos hid] at hy; exact Or.inl hy
    · rw [if_neg hid] at hy
      rcases goCollect_sound (collectAux next F) _ (fun s st' y' h => ih s st' y' h)
        (next id) (id :: st.1, st.2) y hy with h | ⟨s, hs, hcase⟩
      · exact Or.inl h
      · right
        rcases hcase with rfl | ht
        · exact Relation.TransGen.single hs
        · exact Relation.TransGen.head hs ht

theorem collectAux_closed (next : String → List String) (ids : List String)
    (hedge : ∀ x y, y ∈ next x → y ∈ ids ∧ x ∈ ids) :
    ∀ (fuel : Nat) (id : String) (st : List String × List String),
    id ∈ ids → countMissing ids st.1 + 1 ≤ fuel →
    ∀ v ∈ (collectAux next fuel id st).1,
      v ∈ st.1 ∨ (∀ w ∈ next v,
        w ∈ (collectAux next fuel id st).1 ∧ w ∈ (collectAux next fuel id st).2) := by
  intro fuel
  induction fuel with
  | zero =>
    intro id st _ hf
    exact absurd hf (by omega)
  | succ F ihF =>
    intro id st hid hfuel
    simp only [collectAux]
    by_cases hin : id ∈ st.1
    · rw [if_pos hin]
      exact fun v hv => Or.inl hv
    · rw [if_neg hin]
      have hcm : countMissing ids (id :: st.1) + 1 ≤ F := by
        have := countMissing_cons_lt hid hin
        omega
      have hloop : ∀ (l : List String), (∀ s ∈ l, s ∈ ids) →
          ∀ (st1 : List String × List String), countMissing ids st1.1 + 1 ≤ F →
          (∀ v ∈ (goCollect (collectAux next F) l st1).1,
             v ∈ st1.1 ∨ (∀ w ∈ next v,
               w ∈ (goCollect (collectAux next F) l st1).1 ∧
               w ∈ (goCollect (collectAux next F) l st1).2)) ∧
          (∀ s ∈ l, s ∈ (goCollect (collectAux next F) l st1).1 ∧
             s ∈ (goCollect (collectAux next F) l st1).2) := by
        intro l
        induction l with
        | nil =>
          intro _ st1 _
          exact ⟨fun v hv => Or.inl hv, fun s hs => absurd hs (List.not_mem_nil s)⟩
        | cons s rest ihl =>
          intro hl st1 hfl
          simp only [goCollect]
          have hs_ids : s ∈ ids := hl s (List.mem_cons_self s rest)
          have hclosed_s := ihF s (st1.1, addToSet st1.2 s) hs_ids hfl
          have hmono_s := collectAux_mono next F s (st1.1, addToSet st1.2 s)
          have hroot_s : s ∈ (collectAux next F s (st1.1, addToSet st1.2 s)).1 :=
            collectAux_root next F s _ (by omega)
          have hmono_rest := goCollect_mono (collectAux next F)
            (fun a b => collectAux_mono next F a b) rest
            (collectAux next F s (st1.1, addToSet st1.2 s))
          have hfl' : countMissing ids (collectAux next F s (st1.1, addToSet st1.2 s)).1 + 1
              ≤ F := by
            have h0 := countMissing_mono ids hmono_s.1
            have hred : countMissing ids (st1.1, addToSet st1.2 s).1
                = countMissing ids st1.1 := rfl
            omega
          have ihl' := ihl (fun x hx => hl x (List.mem_cons_of_mem _ hx))
            (collectAux next F s (st1.1, addToSet st1.2 s)) hfl'
          constructor
          · intro v hv
            rcases ihl'.1 v hv with hv1 | hcl
            · rcases hclosed_s v hv1 with hv0 | hcl
              · exact Or.inl hv0
              · right
                intro w hw
                obtain ⟨hw1, hw2⟩ := hcl w hw
                exact ⟨hmono_rest.1 hw1, hmono_rest.2 hw2⟩
            · exact Or.inr hcl
          · intro s' hs'
            rcases List.mem_cons.mp hs' with rfl | hs'r
            · refine ⟨hmono_rest.1 hroot_s, ?_⟩
              exact hmono_rest.2 (hmono_s.2 (mem_addToSet.mpr (Or.inr rfl)))
            · exact ihl'.2 s' hs'r
      have hl_ids : ∀ s ∈ next id, s ∈ ids := fun s hs => (hedge id s hs).1
      have hmain := hloop (next id) hl_ids (id :: st.1, st.2) hcm
      intro v hv
      rcases hmain.1 v hv with hv1 | hcl
      · rcases List.mem_cons.mp hv1 with rfl | hv0
        · exact Or.inr (fun w hw => hmain.2 w hw)
        · exact Or.inl hv0
      · exact Or.inr hcl

theorem collectAux_reach_iff (next : String → List String) (ids : List String)
    (hedge : ∀ x y, y ∈ next x → y ∈ ids ∧ x ∈ ids)
    (x : String) (hx : x ∈ ids) (fuel : Nat)
    (hfuel : countMissing ids [] + 1 ≤ fuel) (y : String) :
    y ∈ (collectAux next fuel x ([], [])).2 ↔
      Relation.TransGen (fun a b => b ∈ next a) x y := by
  constructor
  · intro h
    rcases collectAux_sound next fuel x ([], []) y h with h0 | ht
    · exact absurd h0 (List.not_mem_nil y)
    · exact ht
  · intro ht
    have hclosed := collectAux_closed next ids hedge fuel x ([], []) hx hfuel
    have hroot : x ∈ (collectAux next fuel x ([], [])).1 :=
      collectAux_root next fuel x _ (by omega)
    have hstep : ∀ v, v ∈ (collectAux next fuel x ([], [])).1 → ∀ w ∈ next v,
        w ∈ (collectAux next fuel x ([], [])).1 ∧ w ∈ (collectAux next fuel x ([], [])).2 := by
      intro v hv w hw
      rcases hclosed v hv with h0 | hcl
      · exact absurd h0 (List.not_mem_nil v)
      · exact hcl w hw
    have hall : ∀ z, Relation.TransGen (fun a b => b ∈ next a) x z →
        z ∈ (collectAux next fuel x ([], [])).1 ∧
        z ∈ (collectAux next fuel x ([], [])).2 := by
      intro z hz
      induction hz with
      | single h1 => exact hstep x hroot _ h1
      | tail _ h1 ih => exact hstep _ ih.1 _ h1
    exact (hall y ht).2

theorem transGen_converse {r s : String → String → Prop}
    (h : ∀ a b, r a b → s b a) {a b : String}
    (ht : Relation.TransGen r a b) : Relation.TransGen s b a := by
  induction ht with
  | single hr => exact Relation.TransGen.single (h _ _ hr)
  | tail _ hcb ih => exact Relation.TransGen.head (h _ _ hcb) ih

/-- C8: on an acyclic built graph, `y ∈ allDependents(x)` exactly when
`x ∈ allDependencies(y)`, for any ids `x`, `y` of the collection. -/
theorem dependents_dependencies_inverse (cards : Cards)
    (hacyc : Acyclic (buildDependencyGraph cards)) (x y : String)
    (hx : hasCard cards x = true) (hy : hasCard cards y = true) :
    (y ∈ getAllDependents (buildDependencyGraph cards) (cards.length + 2) x ↔
     x ∈ getAllDependencies (buildDependencyGraph cards) (cards.length + 2) y) := by
  have hsym := graphSym_build cards
  have hdecl := edgesDeclared_build cards
  have hedgeS : ∀ a b, b ∈ (buildDependencyGraph cards).succs a →
      b ∈ cards.map Prod.fst ∧ a ∈ cards.map Prod.fst := by
    intro a b h
    obtain ⟨h1, h2, _⟩ := hdecl.2 a b h
    exact ⟨hasCard_iff_mem_keys.mp h1, hasCard_iff_mem_keys.mp h2⟩
  have hedgeP : ∀ a b, b ∈ (buildDependencyGraph cards).preds a →
      b ∈ cards.map Prod.fst ∧ a ∈ cards.map Prod.fst := by
    intro a b h
    obtain ⟨h1, h2, _⟩ := hdecl.1 a b h
    exact ⟨hasCard_iff_mem_keys.mp h1, hasCard_iff_mem_keys.mp h2⟩
  have hfuel : countMissing (cards.map Prod.fst) [] + 1 ≤ cards.length + 2 := by
    unfold countMissing
    simp
  have h1 := collectAux_reach_iff (buildDependencyGraph cards).succs (cards.map Prod.fst)
    hedgeS x (hasCard_iff_mem_keys.mp hx) (cards.length + 2) hfuel y
  have h2 := collectAux_reach_iff (buildDependencyGraph cards).preds (cards.map Prod.fst)
    hedgeP y (hasCard_iff_mem_keys.mp hy) (cards.length + 2) hfuel x
  unfold getAllDependents getAllDependencies
  rw [h1, h2]
  constructor
  · intro ht
    exact transGen_converse (fun a b hb => (hsym a b).mpr hb) ht
  · intro ht
    exact transGen_converse (fun a b hb => (hsym b a).mp hb) ht

theorem acyclic_plainCards : Acyclic (buildDependencyGraph plainCards) := by
  intro x h
  have hempty : ∀ a b, succEdge (buildDependencyGraph plainCards) a b → False := by
    intro a b hb
    have hg : buildDependencyGraph plainCards = emptyGraph := rfl
    rw [hg] at hb
    simp [succEdge, emptyGraph] at hb
  cases h with
  | single h1 => exact hempty _ _ h1
  | tail _ h1 => exact hempty _ _ h1

/-- Witness for C8 at a concrete acyclic collection. -/
theorem dependents_dependencies_inverse_witness :
    Acyclic (buildDependencyGraph plainCards) ∧
    hasCard plainCards "a" = true ∧ hasCard plainCards "b" = true ∧
    ("b" ∈ getAllDependents (buildDependencyGraph plainCards) (plainCards.length + 2) "a" ↔
     "a" ∈ getAllDependencies (buildDependencyGraph plainCards) (plainCards.length + 2) "b") :=
  ⟨acyclic_plainCards, by decide, by decide,
    dependents_dependencies_inverse plainCards acyclic_plainCards "a" "b"
      (by decide) (by decide)⟩

theorem exceptFold_temp (f : String → TopoState → TopoOut)
    (hf : ∀ id s s', f id s = TopoOut.ok s' → s'.temp = s.temp) :
    ∀ (l : List String) (s s' : TopoState),
    exceptFold f l s = TopoOut.ok s' → s'.temp = s.temp := by
  intro l
  induction l with
  | nil =>
    intro s s' h
    simp only [exceptFold] at h
    cases h
    rfl
  | cons p rest ih =>
    intro s s' h
    simp only [exceptFold] at h
    cases hfp : f p s with
    | ok s1 =>
      rw [hfp] at h
      exact (ih s1 s' h).trans (hf p s s1 hfp)
    | cycleErr => rw [hfp] at h; cases h
    | fuelErr => rw [hfp] at h; cases h

theorem topoVisit_temp (preds : String → List String) :
    ∀ (fuel : Nat) (id : String) (s s' : TopoState),
    topoVisit preds fuel id s = TopoOut.ok s' → s'.temp = s.temp := by
  intro fuel
  induction fuel with
  | zero =>
    intro id s s' h
    simp only [topoVisit] at h
    cases h
  | succ F ih =>
    intro id s s' h
    simp only [topoVisit] at h
    by_cases h1 : id ∈ s.temp
    · rw [if_pos h1] at h; cases h
    · rw [if_neg h1] at h
      by_cases h2 : id ∈ s.visited
      · rw [if_pos h2] at h
        cases h
        rfl
      · rw [if_neg h2] at h
        cases hfold : exceptFold (topoVisit preds F) (preds id) { s with temp := id :: s.temp }
          with
        | ok s2 =>
          rw [hfold] at h
          cases h
          have h3 : s2.temp = id :: s.temp := exceptFold_temp _ (fun a b c => ih a b c) _ _ _ hfold
          simp only [h3, List.erase_cons_head]
        | cycleErr => rw [hfold] at h; cases h
        | fuelErr => rw [hfold] at h; cases h

theorem exceptFold_ok (preds : String → List String) (f : String → TopoState → TopoOut)
    (hf : ∀ id s s', f id s = TopoOut.ok s' → TopoInv preds s →
      TopoInv preds s' ∧ s'.temp = s.temp ∧
      (∃ ext, s'.result = s.result ++ ext ∧ ∀ v ∈ ext, v ∉ s.temp) ∧
      id ∈ s'.visited) :
    ∀ (l : List String) (s s' : TopoState),
    exceptFold f l s = TopoOut.ok s' → TopoInv preds s →
    TopoInv preds s' ∧ s'.temp = s.temp ∧
    (∃ ext, s'.result = s.result ++ ext ∧ ∀ v ∈ ext, v ∉ s.temp) ∧
    (∀ p ∈ l, p ∈ s'.visited) := by
  intro l
  induction l with
  | nil =>
    intro s s' h hinv
    simp only [exceptFold] at h
    cases h
    exact ⟨hinv, rfl, ⟨[], by simp, fun v hv => absurd hv (List.not_mem_nil v)⟩,
      fun p hp => absurd hp (List.not_mem_nil p)⟩
  | cons p rest ih =>
    intro s s' h hinv
    simp only [exceptFold] at h
    cases hfp : f p s with
    | ok s1 =>
      rw [hfp] at h
      obtain ⟨hinv1, htemp1, ⟨e1, he1, hne1⟩, hp1⟩ := hf p s s1 hfp hinv
      obtain ⟨hinv', htemp', ⟨e2, he2, hne2⟩, hrest⟩ := ih s1 s' h hinv1
      refine ⟨hinv', htemp'.trans htemp1, ⟨e1 ++ e2, ?_, ?_⟩, ?_⟩
      · rw [he2, he1, List.append_assoc]
      · intro v hv
        rcases List.mem_append.mp hv with hv | hv
        · exact hne1 v hv
        · have := hne2 v hv
          rw [htemp1] at this
          exact this
      · intro q hq
        rcases List.mem_cons.mp hq with rfl | hq'
        · have hq1 : q ∈ s1.result := (hinv1.1 q).mp hp1
          have hq2 : q ∈ s'.result := by
            rw [he2]
            exact List.mem_append_left _ hq1
          exact (hinv'.1 q).mpr hq2
        · exact hrest q hq'
    | cycleErr => rw [hfp] at h; cases h
    | fuelErr => rw [hfp] at h; cases h

theorem topoVisit_ok (preds : String → List String) :
    ∀ (fuel : Nat) (id : String) (s s' : TopoState),
    topoVisit preds fuel id s = TopoOut.ok s' → TopoInv preds s →
    TopoInv preds s' ∧ s'.temp = s.temp ∧
    (∃ ext, s'.result = s.result ++ ext ∧ ∀ v ∈ ext, v ∉ s.temp) ∧
    id ∈ s'.visited := by
  intro fuel
  induction fuel with
  | zero =>
    intro id s s' h
    simp only [topoVisit] at h
    cases h
  | succ F ih =>
    intro id s s' h hinv
    simp only [topoVisit] at h
    by_cases h1 : id ∈ s.temp
    · rw [if_pos h1] at h; cases h
    · rw [if_neg h1] at h
      by_cases h2 : id ∈ s.visited
      · rw [if_pos h2] at h
        cases h
        exact ⟨hinv, rfl, ⟨[], by simp, fun v hv => absurd hv (List.not_mem_nil v)⟩, h2⟩
      · rw [if_neg h2] at h
        cases hfold : exceptFold (topoVisit preds F) (preds id) { s with temp := id :: s.temp }
          with
        | ok s2 =>
          rw [hfold] at h
          cases h
          obtain ⟨hinv2, htemp2, ⟨ext2, hext2, hne2⟩, hpreds⟩ :=
            exceptFold_ok preds (topoVisit preds F) (fun a b c => ih a b c)
              (preds id) _ s2 hfold hinv
          have htemp' : s2.temp.erase id = s.temp := by
            rw [htemp2]
            exact List.erase_cons_head id s.temp
          have hnotin2 : id ∉ s2.result := by
            intro hmem
            rw [hext2] at hmem
            rcases List.mem_append.mp hmem with hm | hm
            · exact h2 ((hinv.1 id).mpr hm)
            · exact hne2 id hm (List.mem_cons_self id s.temp)
          refine ⟨⟨?_, ?_, ?_⟩, htemp', ⟨ext2 ++ [id], ?_, ?_⟩, List.mem_cons_self id _⟩
          · intro v
            simp only [List.mem_cons, List.mem_append, List.mem_singleton, hinv2.1 v]
            tauto
          · exact List.nodup_append.mpr ⟨hinv2.2.1, List.nodup_singleton id,
              fun a ha hb => absurd (List.mem_singleton.mp hb ▸ ha) hnotin2⟩
          · intro c hc p hp
            rcases List.mem_append.mp hc with hc1 | hc2
            · obtain ⟨hpin, hlt⟩ := hinv2.2.2 c hc1 p hp
              refine ⟨List.mem_append_left _ hpin, ?_⟩
              rw [List.indexOf_append_of_mem hpin, List.indexOf_append_of_mem hc1]
              exact hlt
            · have hcid : c = id := List.mem_singleton.mp hc2
              subst hcid
              have hpin : p ∈ s2.result := (hinv2.1 p).mp (hpreds p hp)
              refine ⟨List.mem_append_left _ hpin, ?_⟩
              rw [List.indexOf_append_of_mem hpin,
                List.indexOf_append_of_not_mem hnotin2, List.indexOf_cons_self]
              have := List.indexOf_lt_length.mpr hpin
              omega
          · rw [hext2, List.append_assoc]
          · intro v hv
            rcases List.mem_append.mp hv with hv | hv
            · exact fun hvt => hne2 v hv (List.mem_cons_of_mem _ hvt)
            · rw [List.mem_singleton.mp hv]
              exact h1
        | cycleErr => rw [hfold] at h; cases h
        | fuelErr => rw [hfold] at h; cases h

theorem chain_reach (preds : String → List String) :
    ∀ (temp : List String) (id hd : String) (tl : List String),
    temp = hd :: tl → id ∈ temp →
    List.Chain' (fun a b => a ∈ preds b) temp →
    Relation.ReflTransGen (fun a b => b ∈ preds a) id hd := by
  intro temp
  induction temp with
  | nil => intro id hd tl heq; cases heq
  | cons x xs ih =>
    intro id hd tl heq hmem hchain
    cases heq
    rcases List.mem_cons.mp hmem with rfl | hmem'
    · exact Relation.ReflTransGen.refl
    · obtain ⟨hhead, hchain'⟩ := List.chain'_cons'.mp hchain
      cases xs with
      | nil => exact absurd hmem' (List.not_mem_nil id)
      | cons h2 rest2 =>
        have hstep : x ∈ preds h2 := hhead h2 rfl
        exact Relation.ReflTransGen.tail (ih id h2 rest2 rfl hmem' hchain') hstep

theorem exceptFold_cycle (preds : String → List String) (f : String → TopoState → TopoOut)
    (hf_temp : ∀ id s s', f id s = TopoOut.ok s' → s'.temp = s.temp)
    (hf_cyc : ∀ p s, f p s = TopoOut.cycleErr →
      List.Chain' (fun a b => a ∈ preds b) s.temp →
      (∀ hd tl, s.temp = hd :: tl → p ∈ preds hd) →
      ∃ x, Relation.TransGen (fun a b => b ∈ preds a) x x) :
    ∀ (l : List String) (s : TopoState),
    exceptFold f l s = TopoOut.cycleErr →
    List.Chain' (fun a b => a ∈ preds b) s.temp →
    (∀ p ∈ l, ∀ hd tl, s.temp = hd :: tl → p ∈ preds hd) →
    ∃ x, Relation.TransGen (fun a b => b ∈ preds a) x x := by
  intro l
  induction l with
  | nil =>
    intro s h
    simp only [exceptFold] at h
    cases h
  | cons p rest ih =>
    intro s h hchain hlink
    simp only [exceptFold] at h
    cases hfp : f p s with
    | ok s1 =>
      rw [hfp] at h
      have htp := hf_temp p s s1 hfp
      apply ih s1 h
      · rw [htp]; exact hchain
      · intro q hq hd tl heq
        rw [htp] at heq
        exact hlink q (List.mem_cons_of_mem _ hq) hd tl heq
    | cycleErr =>
      exact hf_cyc p s hfp hchain (fun hd tl heq => hlink p (List.mem_cons_self p rest) hd tl heq)
    | fuelErr => rw [hfp] at h; cases h

theorem topoVisit_cycle (preds : String → List String) :
    ∀ (fuel : Nat) (id : String) (s : TopoState),
    topoVisit preds fuel id s = TopoOut.cycleErr →
    List.Chain' (fun a b => a ∈ preds b) s.temp →
    (∀ hd tl, s.temp = hd :: tl → id ∈ preds hd) →
    ∃ x, Relation.TransGen (fun a b => b ∈ preds a) x x := by
  intro fuel
  induction fuel with
  | zero =>
    intro id s h
    simp only [topoVisit] at h
    cases h
  | succ F ih =>
    intro id s h hchain hlink
    simp only [topoVisit] at h
    by_cases h1 : id ∈ s.temp
    · obtain ⟨hd, tl, htemp⟩ : ∃ hd tl, s.temp = hd :: tl := by
        cases hmem : s.temp with
        | nil => rw [hmem] at h1; exact absurd h1 (List.not_mem_nil id)
        | cons a b => exact ⟨a, b, rfl⟩
      have hreach := chain_reach preds s.temp id hd tl htemp h1 hchain
      exact ⟨id, Relation.TransGen.tail' hreach (hlink hd tl htemp)⟩
    · rw [if_neg h1] at h
      by_cases h2 : id ∈ s.visited
      · rw [if_pos h2] at h; cases h
      · rw [if_neg h2] at h
        cases hfold : exceptFold (topoVisit preds F) (preds id) { s with temp := id :: s.temp }
          with
        | ok s2 => rw [hfold] at h; cases h
        | fuelErr => rw [hfold] at h; cases h
        | cycleErr =>
          apply exceptFold_cycle preds (topoVisit preds F)
            (fun a b c => topoVisit_temp preds F a b c)
            (fun p st hc hch hlk => ih p st hc hch hlk)
            (preds id) { s with temp := id :: s.temp } hfold
          · apply List.chain'_cons'.mpr
            refine ⟨?_, hchain⟩
            intro y hy
            cases hmem : s.temp with
            | nil => rw [hmem] at hy; cases hy
            | cons a b =>
              rw [hmem] at hy
              simp only [List.head?_cons, Option.mem_def, Option.some.injEq] at hy
              rw [← hy]
              exact hlink a b hmem
          · intro p hp hd tl heq
            cases heq
            exact hp

theorem exceptFold_nofuel (f : String → TopoState → TopoOut) (T : List String)
    (P : String → Prop)
    (hf_temp : ∀ id s s', f id s = TopoOut.ok s' → s'.temp = s.temp)
    (hf_nf : ∀ p s, P p → s.temp = T → f p s ≠ TopoOut.fuelErr) :
    ∀ (l : List String) (s : TopoState), (∀ p ∈ l, P p) → s.temp = T →
    exceptFold f l s ≠ TopoOut.fuelErr := by
  intro l
  induction l with
  | nil =>
    intro s _ _ h
    simp only [exceptFold] at h
    cases h
  | cons p rest ih =>
    intro s hP hT h
    simp only [exceptFold] at h
    cases hfp : f p s with
    | ok s1 =>
      rw [hfp] at h
      exact ih s1 (fun q hq => hP q (List.mem_cons_of_mem _ hq))
        ((hf_temp p s s1 hfp).trans hT) h
    | cycleErr => rw [hfp] at h; cases h
    | fuelErr => exact hf_nf p s (hP p (List.mem_cons_self p rest)) hT hfp

theorem topoVisit_nofuel (preds : String → List String) (ids : List String)
    (hedge : ∀ x p, p ∈ preds x → p ∈ ids ∧ x ∈ ids) :
    ∀ (fuel : Nat) (id : String) (s : TopoState), id ∈ ids →
    countMissing ids s.temp + 1 ≤ fuel →
    topoVisit preds fuel id s ≠ TopoOut.fuelErr := by
  intro fuel
  induction fuel with
  | zero =>
    intro id s _ hfuel
    exact absurd hfuel (by omega)
  | succ F ih =>
    intro id s hid hfuel h
    simp only [topoVisit] at h
    by_cases h1 : id ∈ s.temp
    · rw [if_pos h1] at h; cases h
    · rw [if_neg h1] at h
      by_cases h2 : id ∈ s.visited
      · rw [if_pos h2] at h; cases h
      · rw [if_neg h2] at h
        cases hfold : exceptFold (topoVisit preds F) (preds id) { s with temp := id :: s.temp }
          with
        | ok s2 => rw [hfold] at h; cases h
        | cycleErr => rw [hfold] at h; cases h
        | fuelErr =>
          refine exceptFold_nofuel (topoVisit preds F) (id :: s.temp) (· ∈ ids)
            (fun a b c => topoVisit_temp preds F a b c) ?_
            (preds id) { s with temp := id :: s.temp }
            (fun p hp => (hedge id p hp).1) rfl hfold
          intro p st hpids hTst
          apply ih p st hpids
          rw [hTst]
          have := countMissing_cons_lt hid h1
          omega

/-- C2: on the graph built from the collection, `getTopologicalSort` of an
acyclic collection returns an order where every predecessor of a card
appears strictly before that card, and of a collection containing a cycle
reachable from one of its cards it throws the cycle error instead of
returning any order. -/
theorem topological_sort_correct (cards : Cards) :
    (Acyclic (buildDependencyGraph cards) →
      ∃ s, getTopologicalSort cards = TopoOut.ok s ∧
        ∀ id ∈ cards.map Prod.fst,
          ∀ p ∈ getPredecessors (buildDependencyGraph cards) id,
            appearsBefore s.result p id) ∧
    ((∃ c ∈ cards.map Prod.fst, ∃ x,
        Relation.ReflTransGen (succEdge (buildDependencyGraph cards)) c x ∧
        Relation.TransGen (succEdge (buildDependencyGraph cards)) x x) →
      getTopologicalSort cards = TopoOut.cycleErr) := by
  have hsym := graphSym_build cards
  have hdecl := edgesDeclared_build cards
  have hedge : ∀ x p, p ∈ (buildDependencyGraph cards).preds x →
      p ∈ cards.map Prod.fst ∧ x ∈ cards.map Prod.fst := by
    intro x p h
    obtain ⟨h1, h2, _⟩ := hdecl.1 x p h
    exact ⟨hasCard_iff_mem_keys.mp h1, hasCard_iff_mem_keys.mp h2⟩
  have hf_temp : ∀ id s s',
      (if id ∈ s.visited then TopoOut.ok s
       else topoVisit (buildDependencyGraph cards).preds (cards.length + 2) id s)
        = TopoOut.ok s' →
      s'.temp = s.temp := by
    intro id s s' heq
    by_cases hv : id ∈ s.visited
    · rw [if_pos hv] at heq; cases heq; rfl
    · rw [if_neg hv] at heq
      exact topoVisit_temp _ _ _ _ _ heq
  have hf_ok : ∀ id s s',
      (if id ∈ s.visited then TopoOut.ok s
       else topoVisit (buildDependencyGraph cards).preds (cards.length + 2) id s)
        = TopoOut.ok s' →
      TopoInv (buildDependencyGraph cards).preds s →
      TopoInv (buildDependencyGraph cards).preds s' ∧ s'.temp = s.temp ∧
      (∃ ext, s'.result = s.result ++ ext ∧ ∀ v ∈ ext, v ∉ s.temp) ∧
      id ∈ s'.visited := by
    intro id s s' heq hinv
    by_cases hv : id ∈ s.visited
    · rw [if_pos hv] at heq; cases heq
      exact ⟨hinv, rfl, ⟨[], by simp, fun v hv' => absurd hv' (List.not_mem_nil v)⟩, hv⟩
    · rw [if_neg hv] at heq
      exact topoVisit_ok _ _ _ _ _ heq hinv
  have hf_cyc : ∀ p s,
      (if p ∈ s.visited then TopoOut.ok s
       else topoVisit (buildDependencyGraph cards).preds (cards.length + 2) p s)
        = TopoOut.cycleErr →
      List.Chain' (fun a b => a ∈ (buildDependencyGraph cards).preds b) s.temp →
      (∀ hd tl, s.temp = hd :: tl → p ∈ (buildDependencyGraph cards).preds hd) →
      ∃ x, Relation.TransGen (fun a b => b ∈ (buildDependencyGraph cards).preds a) x x := by
    intro p s heq hch hlk
    by_cases hv : p ∈ s.visited
    · rw [if_pos hv] at heq; cases heq
    · rw [if_neg hv] at heq
      exact topoVisit_cycle _ _ _ _ heq hch hlk
  have hfuelbound : countMissing (cards.map Prod.fst) [] + 1 ≤ cards.length + 2 := by
    unfold countMissing
    simp
  have hf_nf : ∀ p s, p ∈ cards.map Prod.fst → s.temp = ([] : List String) →
      (if p ∈ s.visited then TopoOut.ok s
       else topoVisit (buildDependencyGraph cards).preds (cards.length + 2) p s)
        ≠ TopoOut.fuelErr := by
    intro p s hp hT
    by_cases hv : p ∈ s.visited
    · rw [if_pos hv]; intro hcc; cases hcc
    · rw [if_neg hv]
      apply topoVisit_nofuel _ _ hedge _ _ _ hp
      rw [hT]
      exact hfuelbound
  have hinit : TopoInv (buildDependencyGraph cards).preds ⟨[], [], []⟩ :=
    ⟨fun v => Iff.rfl, List.nodup_nil, fun c hc => absurd hc (List.not_mem_nil c)⟩
  have hnofuel : getTopologicalSort cards ≠ TopoOut.fuelErr := by
    simp only [getTopologicalSort]
    exact exceptFold_nofuel _ _ (· ∈ cards.map Prod.fst) hf_temp hf_nf
      (cards.map Prod.fst) ⟨[], [], []⟩ (fun p hp => hp) rfl
  have hok_props : ∀ s0, getTopologicalSort cards = TopoOut.ok s0 →
      TopoInv (buildDependencyGraph cards).preds s0 ∧
      (∀ p ∈ cards.map Prod.fst, p ∈ s0.visited) := by
    intro s0 hres
    simp only [getTopologicalSort] at hres
    obtain ⟨hinv', _, _, hall⟩ := exceptFold_ok _ _ hf_ok _ _ _ hres hinit
    exact ⟨hinv', hall⟩
  constructor
  · intro hacyc
    have hnocycle : getTopologicalSort cards ≠ TopoOut.cycleErr := by
      intro hc
      simp only [getTopologicalSort] at hc
      obtain ⟨x, hx⟩ := exceptFold_cycle (buildDependencyGraph cards).preds _ hf_temp hf_cyc
        (cards.map Prod.fst) ⟨[], [], []⟩ hc (by simp)
        (by intro p hp hd tl heq; cases heq)
      exact hacyc x (transGen_converse (fun a b hb => (hsym b a).mp hb) hx)
    cases hres : getTopologicalSort cards with
    | cycleErr => exact absurd hres hnocycle
    | fuelErr => exact absurd hres hnofuel
    | ok s0 =>
      obtain ⟨hinv', hall⟩ := hok_props s0 hres
      refine ⟨s0, rfl, ?_⟩
      intro id hid p hp
      have hidr : id ∈ s0.result := (hinv'.1 id).mp (hall id hid)
      obtain ⟨hpin, hlt⟩ := hinv'.2.2 id hidr p hp
      exact ⟨hpin, hidr, hlt⟩
  · rintro ⟨c, hc, x, hrch, hcyc⟩
    have hrx : Relation.TransGen (fun a b => b ∈ (buildDependencyGraph cards).preds a) x x :=
      transGen_converse (fun a b hb => (hsym a b).mpr hb) hcyc
    have hxkeys : x ∈ cards.map Prod.fst := by
      cases hrx with
      | single h1 => exact (hedge x x h1).1
      | tail _ h1 => exact (hedge _ x h1).1
    cases hres : getTopologicalSort cards with
    | cycleErr => rfl
    | fuelErr => exact absurd hres hnofuel
    | ok s0 =>
      exfalso
      obtain ⟨hinv', hall⟩ := hok_props s0 hres
      have hxr : x ∈ s0.result := (hinv'.1 x).mp (hall x hxkeys)
      have hwalk : ∀ z,
          Relation.TransGen (fun a b => b ∈ (buildDependencyGraph cards).preds a) x z →
          z ∈ s0.result ∧ s0.result.indexOf z < s0.result.indexOf x := by
        intro z hz
        induction hz with
        | single h1 => exact hinv'.2.2 x hxr _ h1
        | tail _ h1 ih =>
          obtain ⟨hbr, hblt⟩ := ih
          obtain ⟨hzr, hzlt⟩ := hinv'.2.2 _ hbr _ h1
          exact ⟨hzr, Nat.lt_trans hzlt hblt⟩
      exact absurd (hwalk x hrx).2 (Nat.lt_irrefl _)

/-- Witness for C2: the acyclic branch at a concrete dependency-free
collection and the cyclic branch at a concrete two-card cycle. -/
theorem topological_sort_correct_witness :
    (∃ s, getTopologicalSort plainCards = TopoOut.ok s ∧
        ∀ id ∈ plainCards.map Prod.fst,
          ∀ p ∈ getPredecessors (buildDependencyGraph plainCards) id,
            appearsBefore s.result p id) ∧
    getTopologicalSort cycleCards = TopoOut.cycleErr :=
  ⟨(topological_sort_correct plainCards).1 acyclic_plainCards,
   (topological_sort_correct cycleCards).2
     ⟨"0001", by decide, "0001", Relation.ReflTransGen.refl,
       Relation.TransGen.head
         (show ("0002" : String) ∈ (buildDependencyGraph cycleCards).succs "0001" by decide)
         (Relation.TransGen.single
           (show ("0001" : String) ∈ (buildDependencyGraph cycleCards).succs "0002"
             by decide))⟩⟩

end Kanban
